import Mathlib

/-!
Shallow embedding of the dg-cache in-memory driver
(`drivers/memory/memory.go`, `lru.go`, `tag_helpers.go`, `metrics.go`,
the tagged view in the memory package, `config.go` of the root package)
and of the reliability layer (`reliability/breaker.go`,
`reliability/driver.go`).

Modelling conventions:
* Go maps become association lists over `String`; Go map iteration order
  is immaterial for every modelled operation (argued per operation), so a
  deterministic list order is a faithful representative.
* `time.Time` / `time.Duration` become `Int` (nanoseconds since epoch,
  which is what Go's comparisons reduce to); the zero `time.Time` becomes
  `none` in an `Option Int`.
* Go `int64` arithmetic in `Increment` wraps; this is made explicit with
  `wrap64`.  Counters in metrics only ever grow by one per operation and
  are modelled as `Nat`/`Int`.
* The LRU doubly-linked list becomes a Lean list, head (= most recently
  used) first.  Node identity (Go pointers) is modelled with a fresh
  numeric id per `addToFront`, because the `nodes` hash map can hold a
  different node than the linked list does for the same key (this is
  exactly the situation after `forget`, which deletes the map entry but
  never unlinks the list node).
-/

namespace DGCache

/-! ### Association lists standing in for Go maps -/

def aget {α : Type} : List (String × α) → String → Option α
  | [], _ => none
  | p :: t, k => if p.1 = k then some p.2 else aget t k

def aerase {α : Type} : List (String × α) → String → List (String × α)
  | [], _ => []
  | p :: t, k => if p.1 = k then aerase t k else p :: aerase t k

/-- Go `m[k] = v` (insert or replace). -/
def aset {α : Type} (l : List (String × α)) (k : String) (v : α) :
    List (String × α) :=
  (k, v) :: aerase l k

/-! ### Values (`interface{}` payloads)

Only the type distinctions made by the Go source matter: `estimateSize`
branches on the classes below, and `Increment` type-asserts `int64`
specifically.  Sequence values are represented by their length, which is
all `estimateSize` reads. -/

inductive GoValue : Type where
  | VString (n : Nat)
  | VBytes (n : Nat)
  | VInt (v : Int)
  | VInt64 (v : Int)
  | VFloat
  | VBool (b : Bool)
  | VOther
deriving DecidableEq

/-- `estimateSize` from `memory.go`: strings/byte slices use their
length, the integer and float scalar classes use 8, bool uses 1 and
everything else the default 64. -/
def estimateSize : GoValue → Int
  | .VString n => n
  | .VBytes n => n
  | .VInt _ => 8
  | .VInt64 _ => 8
  | .VFloat => 8
  | .VBool _ => 1
  | .VOther => 64

/-- `cache.Item` from `config.go` of the root package.  The `Tags` field
of the Go struct is never read or written by the memory driver and is
omitted. `expiresAt = none` models the zero `time.Time`. -/
structure Item where
  key : String
  value : GoValue
  expiresAt : Option Int
deriving DecidableEq

/-- `Item.IsExpired`: false for the zero time, otherwise
`time.Now().After(ExpiresAt)`. -/
def isExpired (now : Int) (i : Item) : Bool :=
  match i.expiresAt with
  | none => false
  | some t => decide (t < now)

/-! ### Metrics (`metrics.go`) -/

structure Metrics where
  hits : Nat
  misses : Nat
  sets : Nat
  deletes : Nat
  evictions : Nat
  itemCount : Int
  bytesUsed : Int
deriving DecidableEq

def newMetrics : Metrics := ⟨0, 0, 0, 0, 0, 0, 0⟩

def recordHit (m : Metrics) : Metrics := { m with hits := m.hits + 1 }

def recordMiss (m : Metrics) : Metrics := { m with misses := m.misses + 1 }

def recordSet (bytes : Int) (m : Metrics) : Metrics :=
  { m with sets := m.sets + 1, bytesUsed := m.bytesUsed + bytes,
           itemCount := m.itemCount + 1 }

def recordUpdate (oldBytes newBytes : Int) (m : Metrics) : Metrics :=
  { m with sets := m.sets + 1,
           bytesUsed := m.bytesUsed - oldBytes + newBytes }

def recordDelete (bytes : Int) (m : Metrics) : Metrics :=
  { m with deletes := m.deletes + 1, bytesUsed := m.bytesUsed - bytes,
           itemCount := m.itemCount - 1 }

def recordEviction (bytes : Int) (m : Metrics) : Metrics :=
  { m with evictions := m.evictions + 1, bytesUsed := m.bytesUsed - bytes,
           itemCount := m.itemCount - 1 }

/-- The counter part of a `Stats` snapshot (`Metrics.Stats`).  The
floating-point `HitRate` field is not modelled (no claim touches it). -/
structure Stats where
  hits : Nat
  misses : Nat
  sets : Nat
  deletes : Nat
  evictions : Nat
  itemCount : Int
  bytesUsed : Int
deriving DecidableEq

def metricsStats (m : Metrics) : Stats :=
  ⟨m.hits, m.misses, m.sets, m.deletes, m.evictions, m.itemCount, m.bytesUsed⟩

/-! ### Driver configuration (`drivers/memory/config.go`) -/

structure Config where
  maxItems : Int
  maxBytes : Int
  evictionPolicy : String
  cleanupInterval : Int
  enableMetrics : Bool
deriving DecidableEq

def defaultConfig : Config :=
  { maxItems := 0, maxBytes := 0, evictionPolicy := "lru",
    cleanupInterval := 60000000000, enableMetrics := false }

/-! ### Driver state (`memory.go`)

`lru` is the doubly-linked list of `lru.go`, head first; entries are
(node id, key).  `nodes` is the `key -> *lruNode` map, holding node ids.
`pfx` is the `prefix` field. -/

structure Driver where
  items : List (String × Item)
  lru : List (Nat × String)
  nodes : List (String × Nat)
  tags : List (String × List String)
  keyTags : List (String × List String)
  pfx : String
  config : Config
  metrics : Option Metrics
  nextId : Nat
deriving DecidableEq

/-- `NewDriver`, with the already-parsed configuration. -/
def newDriver (c : Config) : Driver :=
  { items := [], lru := [], nodes := [], tags := [], keyTags := [],
    pfx := "", config := c,
    metrics := if c.enableMetrics then some newMetrics else none,
    nextId := 0 }

/-- `prefixKey`. -/
def pfxKey (d : Driver) (key : String) : String :=
  if d.pfx = "" then key else d.pfx ++ ":" ++ key

/-- Apply a metrics update when metrics are enabled (`if d.metrics != nil`). -/
def mmap (f : Metrics → Metrics) (d : Driver) : Driver :=
  { d with metrics := d.metrics.map f }

/-- `Driver.Stats`: zero snapshot when metrics are disabled. -/
def driverStats (d : Driver) : Stats :=
  match d.metrics with
  | none => ⟨0, 0, 0, 0, 0, 0, 0⟩
  | some m => metricsStats m

/-! ### LRU list operations (`lru.go`) -/

/-- `moveToFront` of the node with the given id: a no-op when the node is
already the head, otherwise unlink and re-link at the head.  On a list
with unique ids both cases equal "bring the node to the front". -/
def lruMoveToFront (lru : List (Nat × String)) (id : Nat) :
    List (Nat × String) :=
  match lru.find? (fun n => n.1 == id) with
  | some nd => nd :: lru.filter (fun n => n.1 != id)
  | none => lru

/-- `removeLast`: returns the removed tail's key — the empty string when
the list is empty — together with the remaining list. -/
def lruRemoveLast (lru : List (Nat × String)) : String × List (Nat × String) :=
  match lru.getLast? with
  | none => ("", lru)
  | some nd => (nd.2, lru.dropLast)

/-- `addToFront` plus the surrounding bookkeeping of `put`
(`d.nodes[prefixedKey] = d.lru.addToFront(prefixedKey)`). -/
def lruAddToFront (d : Driver) (pk : String) : Driver :=
  { d with lru := (d.nextId, pk) :: d.lru,
           nodes := aset d.nodes pk d.nextId,
           nextId := d.nextId + 1 }

/-! ### Tag helpers (`tag_helpers.go`) -/

/-- The loop body of `removeKeyTags`: drop `key` from each of its tags'
key sets, pruning tags whose key set becomes empty. -/
def removeTagsFold (tags : List (String × List String)) (key : String)
    (tl : List String) : List (String × List String) :=
  tl.foldl
    (fun m tag =>
      match aget m tag with
      | none => m
      | some keys =>
        let keys' := keys.filter (fun k => k != key)
        if keys'.isEmpty then aerase m tag else aset m tag keys')
    tags

/-- `removeKeyTags`. -/
def removeKeyTags (d : Driver) (key : String) : Driver :=
  match aget d.keyTags key with
  | none => d
  | some tl =>
    { d with tags := removeTagsFold d.tags key tl,
             keyTags := aerase d.keyTags key }

/-- `addKeyTags`: no-op for an empty tag list, otherwise replace the
key's prior associations and insert the key into every tag's set. -/
def addKeyTags (d : Driver) (key : String) (tgs : List String) : Driver :=
  if tgs.isEmpty then d
  else
    let d1 := removeKeyTags d key
    let d2 := { d1 with keyTags := aset d1.keyTags key tgs }
    { d2 with
      tags := tgs.foldl
        (fun m tag =>
          let keys := (aget m tag).getD []
          aset m tag (if key ∈ keys then keys else keys ++ [key]))
        d2.tags }

/-! ### Eviction (`memory.go`) -/

/-- `evictOne`: under the "lru" policy pop the list tail; an empty key
means an empty list (or a genuinely empty-string key) and yields false;
a popped key that is no longer in the item map also yields false — in
both failure cases the popped node stays removed from the list, exactly
as in the source. -/
def evictOne (d : Driver) : Driver × Bool :=
  if d.config.evictionPolicy = "lru" then
    let r := lruRemoveLast d.lru
    if r.1 = "" then ({ d with lru := r.2 }, false)
    else
      let d1 := { d with lru := r.2 }
      match aget d1.items r.1 with
      | some item =>
        let d2 := mmap (recordEviction (estimateSize item.value)) d1
        let d3 := removeKeyTags d2 r.1
        ({ d3 with items := aerase d3.items r.1,
                   nodes := aerase d3.nodes r.1 }, true)
      | none => (d1, false)
  else (d, false)

theorem removeKeyTags_lru (d : Driver) (key : String) :
    (removeKeyTags d key).lru = d.lru := by
  unfold removeKeyTags
  cases aget d.keyTags key <;> rfl

theorem lruRemoveLast_snd_length (l : List (Nat × String)) (h : l ≠ []) :
    (lruRemoveLast l).2.length < l.length := by
  unfold lruRemoveLast
  cases hl : l.getLast? with
  | none =>
    cases l with
    | nil => exact absurd rfl h
    | cons a t => simp at hl
  | some nd =>
    have hpos := List.length_pos.mpr h
    simp only [List.length_dropLast]
    omega

theorem evictOne_fst_lru (d : Driver)
    (hp : d.config.evictionPolicy = "lru") :
    (evictOne d).1.lru = (lruRemoveLast d.lru).2 := by
  unfold evictOne
  rw [if_pos hp]
  by_cases he : (lruRemoveLast d.lru).1 = ""
  · simp [he]
  · simp only [he, if_false]
    cases hi : aget ({ d with lru := (lruRemoveLast d.lru).2 } : Driver).items
        (lruRemoveLast d.lru).1 with
    | none => simp [hi]
    | some item => simp [hi, removeKeyTags_lru, mmap]

theorem evictOne_true_policy (d : Driver) (h : (evictOne d).2 = true) :
    d.config.evictionPolicy = "lru" := by
  by_contra hp
  unfold evictOne at h
  rw [if_neg hp] at h
  simp at h

theorem evictOne_true_ne_nil (d : Driver) (h : (evictOne d).2 = true) :
    d.lru ≠ [] := by
  intro hnil
  have hp := evictOne_true_policy d h
  unfold evictOne at h
  rw [if_pos hp] at h
  simp [lruRemoveLast, hnil] at h

theorem evictOne_lru_length_lt (d : Driver)
    (h : (evictOne d).2 = true) :
    (evictOne d).1.lru.length < d.lru.length := by
  rw [evictOne_fst_lru d (evictOne_true_policy d h)]
  exact lruRemoveLast_snd_length d.lru (evictOne_true_ne_nil d h)

/-- `currentBytes` as computed in `evictIfNeeded`: the metrics byte
counter when metrics are enabled, otherwise a fresh sum over the items. -/
def currentBytes (d : Driver) : Int :=
  match d.metrics with
  | some m => m.bytesUsed
  | none => d.items.foldl (fun acc p => acc + estimateSize p.2.value) 0

/-- One unfolding of the `for currentBytes+newItemSize > MaxBytes` loop
of `evictIfNeeded`, with an explicit recursion bound so the kernel can
evaluate it. -/
def evictBytesLoopF : Nat → Driver → Int → Driver
  | 0, d, _ => d
  | fuel + 1, d, newItemSize =>
    if currentBytes d + newItemSize > d.config.maxBytes then
      if (evictOne d).2 = true then
        evictBytesLoopF fuel (evictOne d).1 newItemSize
      else (evictOne d).1
    else d

/-- The `for currentBytes+newItemSize > d.config.MaxBytes` loop of
`evictIfNeeded`: evict while over budget, stopping as soon as `evictOne`
reports failure.  `d.lru.length` rounds always suffice: every iteration
that continues the loop removed one node from the eviction list, so when
the fuel runs out the list is empty — and on an empty list the Go loop
stops in the same state (its `evictOne` fails without touching
anything). -/
def evictBytesLoop (d : Driver) (newItemSize : Int) : Driver :=
  evictBytesLoopF d.lru.length d newItemSize

/-- `evictIfNeeded`: a single conditional eviction for the item-count
limit, then the byte-budget loop. -/
def evictIfNeeded (d : Driver) (newItemSize : Int) : Driver :=
  let d1 :=
    if d.config.maxItems > 0 ∧ (d.items.length : Int) ≥ d.config.maxItems
    then (evictOne d).1 else d
  if d1.config.maxBytes > 0 then evictBytesLoop d1 newItemSize else d1

/-! ### Store operations (`memory.go`) -/

/-- The write phase of the internal `put`, after the capacity policy has
run: record the set/update metric, write the item, then touch or create
the key's LRU node. -/
def putCore (d : Driver) (pk : String) (item : Item) (newSize : Int) :
    Driver :=
  let d2 :=
    match aget d.items pk with
    | some oldItem =>
      mmap (recordUpdate (estimateSize oldItem.value) newSize) d
    | none => mmap (recordSet newSize) d
  let d3 := { d2 with items := aset d2.items pk item }
  match aget d3.nodes pk with
  | some id => { d3 with lru := lruMoveToFront d3.lru id }
  | none => lruAddToFront d3 pk

/-- The net size delta `put` computes before consulting the capacity
policy: new estimated size minus old on replacement, the full size on a
fresh insert. -/
def netDelta (d : Driver) (pk : String) (newSize : Int) : Int :=
  match aget d.items pk with
  | some oldItem => newSize - estimateSize oldItem.value
  | none => newSize

/-- Internal `put` (the Go function always returns a nil error):
capacity policy on a positive net delta, then the write phase. -/
def put (d : Driver) (key : String) (value : GoValue) (ttl now : Int) :
    Driver :=
  let pk := pfxKey d key
  let newSize := estimateSize value
  let d1 :=
    if netDelta d pk newSize > 0 then evictIfNeeded d (netDelta d pk newSize)
    else d
  putCore d1 pk ⟨key, value, if ttl > 0 then some (now + ttl) else none⟩
    newSize

/-- `PutMultiple`: writes each item straight into the item map with a
shared expiry; input as a list of distinct keys (a Go map). -/
def putMultiple (d : Driver) (items : List (String × GoValue))
    (ttl now : Int) : Driver :=
  let expiresAt := if ttl > 0 then some (now + ttl) else none
  items.foldl
    (fun acc p =>
      { acc with items := aset acc.items (pfxKey acc p.1) ⟨p.1, p.2, expiresAt⟩ })
    d

/-- `Get`; the second component is `some value`, or `none` standing for
the `ErrKeyNotFound` return. -/
def get (d : Driver) (key : String) (now : Int) : Driver × Option GoValue :=
  let pk := pfxKey d key
  match aget d.items pk with
  | none => (mmap recordMiss d, none)
  | some item =>
    if isExpired now item then (mmap recordMiss d, none)
    else
      let d1 :=
        match aget d.nodes pk with
        | some id => { d with lru := lruMoveToFront d.lru id }
        | none => d
      (mmap recordHit d1, some item.value)

/-- Two's-complement wrap of Go `int64` addition. -/
def wrap64 (x : Int) : Int := (x + 2 ^ 63) % 2 ^ 64 - 2 ^ 63

/-- The `current` computation of `Increment`: the existing value when it
is a live `int64`, zero when the key is absent, expired, or of any other
type (the Go code type-asserts `int64` specifically). -/
def incCurrent (d : Driver) (pk : String) (now : Int) : Int :=
  match aget d.items pk with
  | some item =>
    if isExpired now item then 0
    else
      match item.value with
      | .VInt64 v => v
      | _ => 0
  | none => 0

/-- `Increment` (always returns a nil error in Go); the int64 addition
wraps. -/
def increment (d : Driver) (key : String) (value : Int) (now : Int) :
    Driver × Int :=
  let pk := pfxKey d key
  let newValue := wrap64 (incCurrent d pk now + value)
  ({ d with items := aset d.items pk ⟨key, .VInt64 newValue, none⟩ },
   newValue)

/-- `Decrement` delegates to `Increment` with the negated delta. -/
def decrement (d : Driver) (key : String) (value : Int) (now : Int) :
    Driver × Int :=
  increment d key (-value) now

/-- `Forever` = `Put` with zero TTL. -/
def forever (d : Driver) (key : String) (value : GoValue) (now : Int) :
    Driver :=
  put d key value 0 now

/-- The three deletion lines shared verbatim by `forget`,
`ForgetMultiple`, `FlushTags` and `removeExpired`: drop the tag
associations, the item and the node handle of an already-prefixed key.
The linked list is not touched. -/
def forgetRaw (d : Driver) (pk : String) : Driver :=
  let d1 := removeKeyTags d pk
  { d1 with items := aerase d1.items pk, nodes := aerase d1.nodes pk }

/-- Internal `forget` (nil error in Go). -/
def forget (d : Driver) (key : String) : Driver :=
  forgetRaw d (pfxKey d key)

/-- `ForgetMultiple`. -/
def forgetMultiple (d : Driver) (keys : List String) : Driver :=
  keys.foldl (fun acc k => forgetRaw acc (pfxKey acc k)) d

/-- `Flush`: fresh item map, node map, LRU list and tag indexes.
Metrics are left untouched (the source does not reset them). -/
def flush (d : Driver) : Driver :=
  { d with items := [], nodes := [], lru := [], tags := [], keyTags := [] }

/-- `Has` (read-only). -/
def hasKey (d : Driver) (key : String) (now : Int) : Bool :=
  match aget d.items (pfxKey d key) with
  | none => false
  | some item => !isExpired now item

/-- `removeExpired`, the expiry sweep: iterate over the current entries
and delete the expired ones (each iteration only ever deletes the key it
is visiting, so iterating the entry list of the starting state is
faithful to the Go range-with-delete loop). -/
def removeExpired (d : Driver) (now : Int) : Driver :=
  d.items.foldl
    (fun acc p => if isExpired now p.2 then forgetRaw acc p.1 else acc)
    d

/-! ### Tagged view (memory package, tagged-cache file) -/

/-- `taggedCache.Put`: the normal internal put, then tag association of
the prefixed key. -/
def taggedPut (d : Driver) (tgs : List String) (key : String)
    (value : GoValue) (ttl now : Int) : Driver :=
  let d1 := put d key value ttl now
  addKeyTags d1 (pfxKey d1 key) tgs

/-- `taggedCache.PutMultiple`: per-item internal put plus association. -/
def taggedPutMultiple (d : Driver) (tgs : List String)
    (items : List (String × GoValue)) (ttl now : Int) : Driver :=
  items.foldl (fun acc p => taggedPut acc tgs p.1 p.2 ttl now) d

/-- The key-collection phase of `FlushTags`: the deduplicated union of
the key sets of the given tags (`keysToRemove`). -/
def keysToRemove (d : Driver) (tgs : List String) : List String :=
  tgs.foldl
    (fun acc tag =>
      match aget d.tags tag with
      | some keys =>
        keys.foldl (fun a k => if k ∈ a then a else a ++ [k]) acc
      | none => acc)
    []

/-- `FlushTags`: delete every collected (already-prefixed) key once. -/
def flushTags (d : Driver) (tgs : List String) : Driver :=
  (keysToRemove d tgs).foldl (fun acc k => forgetRaw acc k) d

/-! ### The public operation alphabet, for reachability statements -/

inductive Op : Type where
  | opPut (key : String) (value : GoValue) (ttl now : Int)
  | opTaggedPut (tgs : List String) (key : String) (value : GoValue)
      (ttl now : Int)
  | opPutMulti (items : List (String × GoValue)) (ttl now : Int)
  | opTaggedPutMulti (tgs : List String) (items : List (String × GoValue))
      (ttl now : Int)
  | opGet (key : String) (now : Int)
  | opIncrement (key : String) (value now : Int)
  | opDecrement (key : String) (value now : Int)
  | opForever (key : String) (value : GoValue) (now : Int)
  | opForget (key : String)
  | opForgetMulti (keys : List String)
  | opFlush
  | opFlushTags (tgs : List String)
  | opEvict
  | opSweep (now : Int)

def step (d : Driver) : Op → Driver
  | .opPut key value ttl now => put d key value ttl now
  | .opTaggedPut tgs key value ttl now => taggedPut d tgs key value ttl now
  | .opPutMulti items ttl now => putMultiple d items ttl now
  | .opTaggedPutMulti tgs items ttl now =>
      taggedPutMultiple d tgs items ttl now
  | .opGet key now => (get d key now).1
  | .opIncrement key value now => (increment d key value now).1
  | .opDecrement key value now => (decrement d key value now).1
  | .opForever key value now => forever d key value now
  | .opForget key => forget d key
  | .opForgetMulti keys => forgetMultiple d keys
  | .opFlush => flush d
  | .opFlushTags tgs => flushTags d tgs
  | .opEvict => (evictOne d).1
  | .opSweep now => removeExpired d now

/-- The state after running a sequence of public operations on a fresh
driver. -/
def runOps (c : Config) (ops : List Op) : Driver :=
  ops.foldl step (newDriver c)

/-! ### Circuit breaker (`reliability/breaker.go`) -/

inductive BState : Type where
  | closed
  | open
  | halfOpen
deriving DecidableEq

structure TBreaker where
  state : BState
  failures : Int
  failureThreshold : Int
  resetTimeout : Int
  lastFailureTime : Int
deriving DecidableEq

/-- `NewThresholdBreaker`. -/
def newThresholdBreaker (threshold timeout : Int) : TBreaker :=
  { state := .closed, failures := 0, failureThreshold := threshold,
    resetTimeout := timeout, lastFailureTime := 0 }

/-- `Allow`: in `Open`, transition to `HalfOpen` and admit the call only
when `time.Since(lastFailureTime) > resetTimeout` (strictly); otherwise
admit. -/
def allow (b : TBreaker) (now : Int) : TBreaker × Bool :=
  if b.state = .open then
    if now - b.lastFailureTime > b.resetTimeout
    then ({ b with state := .halfOpen }, true)
    else (b, false)
  else (b, true)

/-- `Success`. -/
def reportSuccess (b : TBreaker) : TBreaker :=
  if b.state = .halfOpen then { b with state := .closed, failures := 0 }
  else if b.state = .closed then { b with failures := 0 }
  else b

/-- `Failure`. -/
def reportFailure (b : TBreaker) (now : Int) : TBreaker :=
  if b.state = .closed then
    let b1 := { b with failures := b.failures + 1 }
    if b1.failures ≥ b1.failureThreshold
    then { b1 with state := .open, lastFailureTime := now }
    else b1
  else if b.state = .halfOpen then
    { b with state := .open, lastFailureTime := now }
  else b

/-! ### Resilient store wrapper (`reliability/driver.go`)

`CircuitBreakerDriver` embeds the wrapped `cache.Driver` and overrides
only `Get`, `Put`, `Forget` and `Flush`; every other method of the store
contract is promoted from the embedded driver and reaches the backend
directly.  The backend is abstracted by the error (`none` = nil) its
delegated call would return. -/

inductive CBErr : Type where
  | keyNotFound
  | circuitOpen
  | backend
deriving DecidableEq

inductive StoreOp : Type where
  | sGet
  | sGetMulti
  | sPut
  | sPutMulti
  | sIncrement
  | sDecrement
  | sForever
  | sForget
  | sForgetMulti
  | sFlush
  | sHas
  | sMissing
deriving DecidableEq

/-- Which store operations `CircuitBreakerDriver` overrides. -/
def intercepted : StoreOp → Bool
  | .sGet => true
  | .sPut => true
  | .sForget => true
  | .sFlush => true
  | _ => false

/-- `report`: any non-nil error other than `ErrKeyNotFound` counts as a
failure; everything else (including `ErrKeyNotFound`) as a success. -/
def cbReport (b : TBreaker) (now : Int) (err : Option CBErr) : TBreaker :=
  match err with
  | some e => if e = .keyNotFound then reportSuccess b else reportFailure b now
  | none => reportSuccess b

/-- One call through the wrapper.  Returns the breaker afterwards,
whether the wrapped store was invoked, and the error the caller sees
(`none` = nil). -/
def cbInvoke (b : TBreaker) (now : Int) (resp : Option CBErr)
    (op : StoreOp) : TBreaker × Bool × Option CBErr :=
  if intercepted op then
    match allow b now with
    | (b1, false) => (b1, false, some .circuitOpen)
    | (b1, true) => (cbReport b1 now resp, true, resp)
  else (b, true, resp)

/-! ### Derived definitions used by the specifications -/

/-- The deletes counter as visible through a stats snapshot. -/
def mdeletes (d : Driver) : Nat := (driverStats d).deletes

/-- The consistency stated by the spec's global invariant: the item map,
the keys linked in the eviction-index list, and the tag index's key set
all name the same live keys. -/
def structuresAgree (d : Driver) : Prop :=
  ∀ k, ((aget d.items k).isSome = true ↔ k ∈ d.lru.map Prod.snd) ∧
    ((aget d.items k).isSome = true ↔ (aget d.keyTags k).isSome = true)

/-- The direction of the global invariant the code does maintain: the
node-handle map and the tag index never hold a key that is absent from
the item map. -/
def keySub (d : Driver) : Prop :=
  (∀ k, (aget d.nodes k).isSome = true → (aget d.items k).isSome = true) ∧
  (∀ k, (aget d.keyTags k).isSome = true → (aget d.items k).isSome = true)

/-- Reference semantics of `put_multi` as the spec states it ("applies
`put` semantics per item"): fold the real `put` over the entries. -/
def putMultiSpec (d : Driver) (items : List (String × GoValue))
    (ttl now : Int) : Driver :=
  items.foldl (fun acc p => put acc p.1 p.2 ttl now) d

/-- One second in the nanosecond time scale of the embedding. -/
def oneSecond : Int := 1000000000

/-- The capacity-policy postcondition stated by the claim: eviction
continues, LRU first, until the item count is below the configured limit
and pending bytes fit the configured budget — stopping early only when
the eviction index runs empty. `pre` is the state the policy was
consulted on, `post` the state it leaves, `delta` the pending net size
delta. -/
def specCapacityPost (pre post : Driver) (delta : Int) : Prop :=
  (pre.config.maxItems > 0 →
    (post.items.length : Int) < pre.config.maxItems ∨ post.lru = []) ∧
  (pre.config.maxBytes > 0 →
    currentBytes post + delta ≤ pre.config.maxBytes ∨ post.lru = [])

/-! ### Association-list lemmas -/

theorem aget_aerase {α : Type} (l : List (String × α)) (k k' : String) :
    aget (aerase l k) k' = if k' = k then none else aget l k' := by
  induction l with
  | nil => simp [aerase, aget]
  | cons p t ih =>
    by_cases h1 : p.1 = k
    · rw [show aerase (p :: t) k = aerase t k by simp [aerase, h1], ih]
      by_cases h2 : k' = k
      · simp [h2]
      · have hp : p.1 ≠ k' := fun hc => h2 (hc ▸ h1)
        simp [h2, aget, hp]
    · rw [show aerase (p :: t) k = p :: aerase t k by simp [aerase, h1]]
      by_cases h2 : p.1 = k'
      · have hk : k' ≠ k := fun hc => h1 (h2.trans hc)
        simp [aget, h2, hk]
      · simp [aget, h2, ih]

theorem aget_aset {α : Type} (l : List (String × α)) (k k' : String) (v : α) :
    aget (aset l k v) k' = if k' = k then some v else aget l k' := by
  by_cases h : k' = k
  · simp [aset, aget, h]
  · have h' : k ≠ k' := fun hc => h hc.symm
    simp [aset, aget, h', aget_aerase, h]

theorem aget_none_of_not_mem {α : Type} (l : List (String × α)) (k : String)
    (h : k ∉ l.map Prod.fst) : aget l k = none := by
  induction l with
  | nil => rfl
  | cons p t ih =>
    simp only [List.map_cons, List.mem_cons] at h
    push_neg at h
    have h1 : p.1 ≠ k := fun hc => h.1 hc.symm
    simp [aget, h1, ih h.2]

/-! ### Frame lemmas for the tag helpers -/

theorem removeKeyTags_items (d : Driver) (key : String) :
    (removeKeyTags d key).items = d.items := by
  unfold removeKeyTags
  cases aget d.keyTags key <;> rfl

theorem removeKeyTags_nodes (d : Driver) (key : String) :
    (removeKeyTags d key).nodes = d.nodes := by
  unfold removeKeyTags
  cases aget d.keyTags key <;> rfl

theorem removeKeyTags_pfx (d : Driver) (key : String) :
    (removeKeyTags d key).pfx = d.pfx := by
  unfold removeKeyTags
  cases aget d.keyTags key <;> rfl

theorem removeKeyTags_config (d : Driver) (key : String) :
    (removeKeyTags d key).config = d.config := by
  unfold removeKeyTags
  cases aget d.keyTags key <;> rfl

theorem removeKeyTags_metrics (d : Driver) (key : String) :
    (removeKeyTags d key).metrics = d.metrics := by
  unfold removeKeyTags
  cases aget d.keyTags key <;> rfl

theorem removeKeyTags_nextId (d : Driver) (key : String) :
    (removeKeyTags d key).nextId = d.nextId := by
  unfold removeKeyTags
  cases aget d.keyTags key <;> rfl

theorem removeKeyTags_keyTags (d : Driver) (key k : String) :
    aget (removeKeyTags d key).keyTags k =
      if k = key then none else aget d.keyTags k := by
  unfold removeKeyTags
  cases h : aget d.keyTags key with
  | none =>
    by_cases hk : k = key
    · simp [hk, h]
    · simp [hk]
  | some tl => simp [aget_aerase]

theorem addKeyTags_items (d : Driver) (key : String) (tgs : List String) :
    (addKeyTags d key tgs).items = d.items := by
  unfold addKeyTags
  by_cases h : tgs.isEmpty <;> simp [h, removeKeyTags_items]

theorem addKeyTags_nodes (d : Driver) (key : String) (tgs : List String) :
    (addKeyTags d key tgs).nodes = d.nodes := by
  unfold addKeyTags
  by_cases h : tgs.isEmpty <;> simp [h, removeKeyTags_nodes]

theorem addKeyTags_lru (d : Driver) (key : String) (tgs : List String) :
    (addKeyTags d key tgs).lru = d.lru := by
  unfold addKeyTags
  by_cases h : tgs.isEmpty <;> simp [h, removeKeyTags_lru]

theorem addKeyTags_pfx (d : Driver) (key : String) (tgs : List String) :
    (addKeyTags d key tgs).pfx = d.pfx := by
  unfold addKeyTags
  by_cases h : tgs.isEmpty <;> simp [h, removeKeyTags_pfx]

theorem addKeyTags_config (d : Driver) (key : String) (tgs : List String) :
    (addKeyTags d key tgs).config = d.config := by
  unfold addKeyTags
  by_cases h : tgs.isEmpty <;> simp [h, removeKeyTags_config]

theorem addKeyTags_metrics (d : Driver) (key : String) (tgs : List String) :
    (addKeyTags d key tgs).metrics = d.metrics := by
  unfold addKeyTags
  by_cases h : tgs.isEmpty <;> simp [h, removeKeyTags_metrics]

theorem addKeyTags_nextId (d : Driver) (key : String) (tgs : List String) :
    (addKeyTags d key tgs).nextId = d.nextId := by
  unfold addKeyTags
  by_cases h : tgs.isEmpty <;> simp [h, removeKeyTags_nextId]

theorem addKeyTags_keyTags (d : Driver) (key k : String) (tgs : List String)
    (h : ¬tgs.isEmpty) :
    aget (addKeyTags d key tgs).keyTags k =
      if k = key then some tgs else aget d.keyTags k := by
  unfold addKeyTags
  simp only [h, if_false, Bool.false_eq_true]
  by_cases hk : k = key <;>
    simp [aget_aset, hk, removeKeyTags_keyTags]

/-! ### Frame lemmas for `forgetRaw` -/

theorem forgetRaw_items (d : Driver) (pk k : String) :
    aget (forgetRaw d pk).items k = if k = pk then none else aget d.items k := by
  unfold forgetRaw
  simp [aget_aerase, removeKeyTags_items]

theorem forgetRaw_nodes (d : Driver) (pk k : String) :
    aget (forgetRaw d pk).nodes k = if k = pk then none else aget d.nodes k := by
  unfold forgetRaw
  simp [aget_aerase, removeKeyTags_nodes]

theorem forgetRaw_keyTags (d : Driver) (pk k : String) :
    aget (forgetRaw d pk).keyTags k =
      if k = pk then none else aget d.keyTags k := by
  unfold forgetRaw
  exact removeKeyTags_keyTags d pk k

theorem forgetRaw_lru (d : Driver) (pk : String) :
    (forgetRaw d pk).lru = d.lru := by
  unfold forgetRaw
  simp [removeKeyTags_lru]

theorem forgetRaw_pfx (d : Driver) (pk : String) :
    (forgetRaw d pk).pfx = d.pfx := by
  unfold forgetRaw
  simp [removeKeyTags_pfx]

theorem forgetRaw_config (d : Driver) (pk : String) :
    (forgetRaw d pk).config = d.config := by
  unfold forgetRaw
  simp [removeKeyTags_config]

theorem forgetRaw_metrics (d : Driver) (pk : String) :
    (forgetRaw d pk).metrics = d.metrics := by
  unfold forgetRaw
  simp [removeKeyTags_metrics]

theorem forgetRaw_nextId (d : Driver) (pk : String) :
    (forgetRaw d pk).nextId = d.nextId := by
  unfold forgetRaw
  simp [removeKeyTags_nextId]

/-! ### Characterization of `evictOne` -/

theorem lruRemoveLast_fst_mem (l : List (Nat × String))
    (h : (lruRemoveLast l).1 ≠ "") :
    (lruRemoveLast l).1 ∈ l.map Prod.snd := by
  unfold lruRemoveLast at *
  cases hl : l.getLast? with
  | none => simp [hl] at h
  | some nd =>
    have hmem : nd ∈ l := by
      have h2 : nd ∈ l.getLast? := by rw [hl]; rfl
      obtain ⟨hne, heq⟩ := List.mem_getLast?_eq_getLast h2
      exact heq ▸ List.getLast_mem hne
    simp only [hl]
    exact List.mem_map.mpr ⟨nd, hmem, rfl⟩

/-- `evictOne` either fails and leaves the item map, node map, tag index
and metrics untouched, or succeeds and removes exactly one key — a key
that was linked in the eviction list — from all three maps, recording one
eviction. -/
theorem evictOne_char (d : Driver) :
    ((evictOne d).2 = false ∧ (evictOne d).1.items = d.items ∧
      (evictOne d).1.nodes = d.nodes ∧ (evictOne d).1.keyTags = d.keyTags ∧
      (evictOne d).1.metrics = d.metrics) ∨
    ((evictOne d).2 = true ∧ ∃ key, key ∈ d.lru.map Prod.snd ∧
      (∀ k, aget (evictOne d).1.items k =
        if k = key then none else aget d.items k) ∧
      (∀ k, aget (evictOne d).1.nodes k =
        if k = key then none else aget d.nodes k) ∧
      (∀ k, aget (evictOne d).1.keyTags k =
        if k = key then none else aget d.keyTags k) ∧
      ∃ sz, (evictOne d).1.metrics = d.metrics.map (recordEviction sz)) := by
  unfold evictOne
  by_cases hp : d.config.evictionPolicy = "lru"
  · rw [if_pos hp]
    by_cases he : (lruRemoveLast d.lru).1 = ""
    · left
      simp [he]
    · rw [if_neg he]
      cases hi : aget ({ d with lru := (lruRemoveLast d.lru).2 } : Driver).items
          (lruRemoveLast d.lru).1 with
      | none =>
        left
        simp [hi]
      | some item =>
        right
        simp only [hi]
        refine ⟨by trivial, (lruRemoveLast d.lru).1,
          lruRemoveLast_fst_mem d.lru he, ?_, ?_, ?_, ?_⟩
        · intro k
          simp [aget_aerase, removeKeyTags_items, mmap]
        · intro k
          simp [aget_aerase, removeKeyTags_nodes, mmap]
        · intro k
          have := removeKeyTags_keyTags
            (mmap (recordEviction (estimateSize item.value))
              { d with lru := (lruRemoveLast d.lru).2 })
            (lruRemoveLast d.lru).1 k
          simpa [mmap] using this
        · exact ⟨estimateSize item.value,
            by simp [removeKeyTags_metrics, mmap]⟩
  · left
    simp [hp]

theorem evictOne_pfx (d : Driver) : (evictOne d).1.pfx = d.pfx := by
  unfold evictOne
  by_cases hp : d.config.evictionPolicy = "lru"
  · rw [if_pos hp]
    by_cases he : (lruRemoveLast d.lru).1 = ""
    · simp [he]
    · rw [if_neg he]
      cases hi : aget ({ d with lru := (lruRemoveLast d.lru).2 } : Driver).items
          (lruRemoveLast d.lru).1 with
      | none => simp [hi]
      | some item => simp [hi, removeKeyTags_pfx, mmap]
  · simp [hp]

theorem evictOne_config (d : Driver) : (evictOne d).1.config = d.config := by
  unfold evictOne
  by_cases hp : d.config.evictionPolicy = "lru"
  · rw [if_pos hp]
    by_cases he : (lruRemoveLast d.lru).1 = ""
    · simp [he]
    · rw [if_neg he]
      cases hi : aget ({ d with lru := (lruRemoveLast d.lru).2 } : Driver).items
          (lruRemoveLast d.lru).1 with
      | none => simp [hi]
      | some item => simp [hi, removeKeyTags_config, mmap]
  · simp [hp]

/-- A successful `evictOne` only ever removes a key that was linked in
the eviction list: any key without a list node keeps its item. -/
theorem evictOne_items_of_not_linked (d : Driver) (k : String)
    (h : k ∉ d.lru.map Prod.snd) :
    aget (evictOne d).1.items k = aget d.items k := by
  rcases evictOne_char d with ⟨_, hit, _⟩ | ⟨_, key, hmem, hit, _⟩
  · rw [hit]
  · rw [hit k, if_neg]
    intro hk
    exact h (hk ▸ hmem)

theorem evictOne_mdeletes (d : Driver) :
    mdeletes (evictOne d).1 = mdeletes d := by
  rcases evictOne_char d with ⟨_, _, _, _, hm⟩ | ⟨_, key, _, _, _, _, sz, hm⟩
  · simp [mdeletes, driverStats, hm]
  · unfold mdeletes driverStats
    rw [hm]
    cases d.metrics with
    | none => rfl
    | some m => rfl

theorem evictOne_keySub (d : Driver) (h : keySub d) :
    keySub (evictOne d).1 := by
  rcases evictOne_char d with ⟨_, hit, hnd, hkt, _⟩ | ⟨_, key, _, hit, hnd, hkt, _⟩
  · exact ⟨fun k => by rw [hit, hnd]; exact h.1 k,
      fun k => by rw [hit, hkt]; exact h.2 k⟩
  · constructor
    · intro k hk
      rw [hnd k] at hk
      rw [hit k]
      by_cases hkey : k = key
      · simp [hkey] at hk
      · rw [if_neg hkey] at hk ⊢
        exact h.1 k hk
    · intro k hk
      rw [hkt k] at hk
      rw [hit k]
      by_cases hkey : k = key
      · simp [hkey] at hk
      · rw [if_neg hkey] at hk ⊢
        exact h.2 k hk

/-! ### The byte-budget loop -/

/-- On an empty eviction list, `evictOne` fails and returns the state
unchanged. -/
theorem evictOne_nil (d : Driver) (hnil : d.lru = []) :
    evictOne d = (d, false) := by
  unfold evictOne
  by_cases hp : d.config.evictionPolicy = "lru"
  · rw [if_pos hp]
    have h1 : lruRemoveLast d.lru = ("", d.lru) := by
      rw [hnil]
      rfl
    rw [h1]
    simp only [if_pos rfl]
    congr 1
  · rw [if_neg hp]

theorem evictBytesLoopF_pres (P : Driver → Prop)
    (hP : ∀ x, P x → P (evictOne x).1) (n : Int) :
    ∀ (fuel : Nat) (d : Driver), P d → P (evictBytesLoopF fuel d n) := by
  intro fuel
  induction fuel with
  | zero => exact fun d h => h
  | succ m ih =>
    intro d hd
    simp only [evictBytesLoopF]
    split
    · split
      · exact ih _ (hP d hd)
      · exact hP d hd
    · exact hd

theorem evictBytesLoop_pres (P : Driver → Prop)
    (hP : ∀ x, P x → P (evictOne x).1) (n : Int) :
    ∀ (m : Nat) (d : Driver), d.lru.length ≤ m → P d →
      P (evictBytesLoop d n) :=
  fun _ d _ hd => evictBytesLoopF_pres P hP n d.lru.length d hd

theorem evictBytesLoopF_post (n : Int) :
    ∀ (fuel : Nat) (d : Driver), d.lru.length ≤ fuel →
      currentBytes (evictBytesLoopF fuel d n) + n ≤
          (evictBytesLoopF fuel d n).config.maxBytes ∨
        ∃ d', currentBytes d' + n > d'.config.maxBytes ∧
          (evictOne d').2 = false ∧
          evictBytesLoopF fuel d n = (evictOne d').1 := by
  intro fuel
  induction fuel with
  | zero =>
    intro d hm
    simp only [evictBytesLoopF]
    by_cases hcond : currentBytes d + n > d.config.maxBytes
    · right
      have hnil : d.lru = [] := List.length_eq_zero.mp (Nat.le_zero.mp hm)
      refine ⟨d, hcond, ?_, ?_⟩
      · rw [evictOne_nil d hnil]
      · rw [evictOne_nil d hnil]
    · left
      omega
  | succ m ih =>
    intro d hm
    simp only [evictBytesLoopF]
    split
    · split
      · next h =>
        exact ih (evictOne d).1
          (by have := evictOne_lru_length_lt d h; omega)
      · next hcond h =>
        right
        exact ⟨d, by omega, by simpa using h, rfl⟩
    · next hcond => left; omega

/-- The exit condition of the byte-budget loop: on return, either the
pending delta fits the budget, or the very last `evictOne` attempt
failed (empty index, or a popped key that no longer exists). -/
theorem evictBytesLoop_post (n : Int) :
    ∀ (m : Nat) (d : Driver), d.lru.length ≤ m →
      currentBytes (evictBytesLoop d n) + n ≤
          (evictBytesLoop d n).config.maxBytes ∨
        ∃ d', currentBytes d' + n > d'.config.maxBytes ∧
          (evictOne d').2 = false ∧ evictBytesLoop d n = (evictOne d').1 :=
  fun _ d _ => evictBytesLoopF_post n d.lru.length d le_rfl

/-! ### `evictIfNeeded` -/

theorem evictIfNeeded_pres (P : Driver → Prop)
    (hP : ∀ x, P x → P (evictOne x).1) (d : Driver) (n : Int) (hd : P d) :
    P (evictIfNeeded d n) := by
  simp only [evictIfNeeded]
  by_cases hc : d.config.maxItems > 0 ∧
      (d.items.length : Int) ≥ d.config.maxItems
  · simp only [if_pos hc]
    split
    · exact evictBytesLoop_pres P hP n _ _ le_rfl (hP d hd)
    · exact hP d hd
  · simp only [if_neg hc]
    split
    · exact evictBytesLoop_pres P hP n _ _ le_rfl hd
    · exact hd

theorem evictIfNeeded_keySub (d : Driver) (n : Int) (h : keySub d) :
    keySub (evictIfNeeded d n) :=
  evictIfNeeded_pres keySub evictOne_keySub d n h

theorem evictIfNeeded_mdeletes (d : Driver) (n : Int) :
    mdeletes (evictIfNeeded d n) = mdeletes d :=
  evictIfNeeded_pres (fun x => mdeletes x = mdeletes d)
    (fun x hx => (evictOne_mdeletes x).trans hx) d n rfl

theorem evictIfNeeded_pfx (d : Driver) (n : Int) :
    (evictIfNeeded d n).pfx = d.pfx :=
  evictIfNeeded_pres (fun x => x.pfx = d.pfx)
    (fun x hx => (evictOne_pfx x).trans hx) d n rfl

theorem evictIfNeeded_config (d : Driver) (n : Int) :
    (evictIfNeeded d n).config = d.config :=
  evictIfNeeded_pres (fun x => x.config = d.config)
    (fun x hx => (evictOne_config x).trans hx) d n rfl

/-! ### Characterization of `putCore` and `put` -/

theorem putCore_items (d : Driver) (pk : String) (item : Item) (n : Int)
    (k : String) :
    aget (putCore d pk item n).items k =
      if k = pk then some item else aget d.items k := by
  unfold putCore
  simp only [mmap]
  cases h1 : aget d.items pk <;>
    simp only [h1] <;>
      cases h2 : aget d.nodes pk <;>
        simp [h2, lruAddToFront, aget_aset]

theorem putCore_keyTags (d : Driver) (pk : String) (item : Item) (n : Int) :
    (putCore d pk item n).keyTags = d.keyTags := by
  unfold putCore
  simp only [mmap]
  cases h1 : aget d.items pk <;>
    simp only [h1] <;>
      cases h2 : aget d.nodes pk <;>
        simp [h2, lruAddToFront]

theorem putCore_pfx (d : Driver) (pk : String) (item : Item) (n : Int) :
    (putCore d pk item n).pfx = d.pfx := by
  unfold putCore
  simp only [mmap]
  cases h1 : aget d.items pk <;>
    simp only [h1] <;>
      cases h2 : aget d.nodes pk <;>
        simp [h2, lruAddToFront]

theorem putCore_config (d : Driver) (pk : String) (item : Item) (n : Int) :
    (putCore d pk item n).config = d.config := by
  unfold putCore
  simp only [mmap]
  cases h1 : aget d.items pk <;>
    simp only [h1] <;>
      cases h2 : aget d.nodes pk <;>
        simp [h2, lruAddToFront]

theorem putCore_mdeletes (d : Driver) (pk : String) (item : Item) (n : Int) :
    mdeletes (putCore d pk item n) = mdeletes d := by
  unfold putCore
  simp only [mmap]
  cases h1 : aget d.items pk <;>
    simp only [h1] <;>
      cases h2 : aget d.nodes pk <;>
        cases hm : d.metrics <;>
          simp [h2, hm, lruAddToFront, mdeletes, driverStats, metricsStats,
            recordSet, recordUpdate]

theorem putCore_nodes_some (d : Driver) (pk : String) (item : Item) (n : Int)
    (h : (aget d.nodes pk).isSome = true) :
    (putCore d pk item n).nodes = d.nodes := by
  unfold putCore
  simp only [mmap]
  rcases Option.isSome_iff_exists.mp h with ⟨id, hid⟩
  cases h1 : aget d.items pk <;>
    simp [h1, hid]

theorem putCore_nodes_none (d : Driver) (pk : String) (item : Item) (n : Int)
    (h : aget d.nodes pk = none) :
    (putCore d pk item n).nodes = aset d.nodes pk d.nextId := by
  unfold putCore
  simp only [mmap]
  cases h1 : aget d.items pk <;>
    simp [h1, h, lruAddToFront]

theorem put_items_self (d : Driver) (key : String) (value : GoValue)
    (ttl now : Int) :
    aget (put d key value ttl now).items (pfxKey d key) =
      some ⟨key, value, if ttl > 0 then some (now + ttl) else none⟩ := by
  unfold put
  rw [putCore_items]
  simp

theorem put_pfx (d : Driver) (key : String) (value : GoValue)
    (ttl now : Int) : (put d key value ttl now).pfx = d.pfx := by
  unfold put
  rw [putCore_pfx]
  split
  · exact evictIfNeeded_pfx d _
  · rfl

theorem put_config (d : Driver) (key : String) (value : GoValue)
    (ttl now : Int) : (put d key value ttl now).config = d.config := by
  unfold put
  rw [putCore_config]
  split
  · exact evictIfNeeded_config d _
  · rfl

theorem put_mdeletes (d : Driver) (key : String) (value : GoValue)
    (ttl now : Int) : mdeletes (put d key value ttl now) = mdeletes d := by
  unfold put
  rw [putCore_mdeletes]
  split
  · exact evictIfNeeded_mdeletes d _
  · rfl

theorem put_keySub (d : Driver) (key : String) (value : GoValue)
    (ttl now : Int) (h : keySub d) : keySub (put d key value ttl now) := by
  unfold put
  have h1 : keySub (if netDelta d (pfxKey d key) (estimateSize value) > 0
      then evictIfNeeded d (netDelta d (pfxKey d key) (estimateSize value))
      else d) := by
    split
    · exact evictIfNeeded_keySub d _ h
    · exact h
  set d1 := if netDelta d (pfxKey d key) (estimateSize value) > 0
      then evictIfNeeded d (netDelta d (pfxKey d key) (estimateSize value))
      else d with hd1
  constructor
  · intro k hk
    rw [putCore_items]
    by_cases hpk : k = pfxKey d key
    · simp [hpk]
    · rw [if_neg hpk]
      cases hn : aget d1.nodes (pfxKey d key) with
      | some id =>
        rw [putCore_nodes_some _ _ _ _ (by simp [hn])] at hk
        exact h1.1 k hk
      | none =>
        rw [putCore_nodes_none _ _ _ _ hn, aget_aset, if_neg hpk] at hk
        exact h1.1 k hk
  · intro k hk
    rw [putCore_keyTags] at hk
    rw [putCore_items]
    by_cases hpk : k = pfxKey d key
    · simp [hpk]
    · rw [if_neg hpk]
      exact h1.2 k hk

/-! ### Generic fold preservation -/

theorem foldl_pres {α : Type} (P : Driver → Prop) (f : Driver → α → Driver)
    (hf : ∀ d a, P d → P (f d a)) :
    ∀ (l : List α) (d : Driver), P d → P (l.foldl f d) := by
  intro l
  induction l with
  | nil => exact fun d h => h
  | cons a t ih => exact fun d h => ih (f d a) (hf d a h)

/-! ### Characterization of `get` -/

theorem get_char (d : Driver) (key : String) (now : Int) :
    (aget d.items (pfxKey d key) = none →
      get d key now = (mmap recordMiss d, none)) ∧
    (∀ item, aget d.items (pfxKey d key) = some item →
      isExpired now item = true →
      get d key now = (mmap recordMiss d, none)) ∧
    (∀ item, aget d.items (pfxKey d key) = some item →
      isExpired now item = false →
      get d key now =
        (mmap recordHit
          (match aget d.nodes (pfxKey d key) with
           | some id => { d with lru := lruMoveToFront d.lru id }
           | none => d), some item.value)) := by
  refine ⟨fun h1 => ?_, fun item h1 h2 => ?_, fun item h1 h2 => ?_⟩
  · simp [get, h1]
  · simp [get, h1, h2]
  · simp only [get, h1, h2]
    rfl

theorem get_fst_items (d : Driver) (key : String) (now : Int) :
    (get d key now).1.items = d.items := by
  rcases get_char d key now with ⟨hn, he, hf⟩
  cases h1 : aget d.items (pfxKey d key) with
  | none => rw [hn h1]; rfl
  | some item =>
    cases h2 : isExpired now item
    · rw [hf item h1 h2]
      cases h3 : aget d.nodes (pfxKey d key) <;> simp [h3, mmap]
    · rw [he item h1 h2]; rfl

theorem get_fst_nodes (d : Driver) (key : String) (now : Int) :
    (get d key now).1.nodes = d.nodes := by
  rcases get_char d key now with ⟨hn, he, hf⟩
  cases h1 : aget d.items (pfxKey d key) with
  | none => rw [hn h1]; rfl
  | some item =>
    cases h2 : isExpired now item
    · rw [hf item h1 h2]
      cases h3 : aget d.nodes (pfxKey d key) <;> simp [h3, mmap]
    · rw [he item h1 h2]; rfl

theorem get_fst_keyTags (d : Driver) (key : String) (now : Int) :
    (get d key now).1.keyTags = d.keyTags := by
  rcases get_char d key now with ⟨hn, he, hf⟩
  cases h1 : aget d.items (pfxKey d key) with
  | none => rw [hn h1]; rfl
  | some item =>
    cases h2 : isExpired now item
    · rw [hf item h1 h2]
      cases h3 : aget d.nodes (pfxKey d key) <;> simp [h3, mmap]
    · rw [he item h1 h2]; rfl

theorem mdeletes_mmap (f : Metrics → Metrics)
    (hf : ∀ m, (f m).deletes = m.deletes) (d : Driver) :
    mdeletes (mmap f d) = mdeletes d := by
  unfold mdeletes driverStats mmap
  cases d.metrics with
  | none => rfl
  | some m => simp [metricsStats, hf]

theorem mdeletes_congr_metrics (d1 d2 : Driver)
    (h : d1.metrics = d2.metrics) : mdeletes d1 = mdeletes d2 := by
  unfold mdeletes driverStats
  rw [h]

theorem get_mdeletes (d : Driver) (key : String) (now : Int) :
    mdeletes (get d key now).1 = mdeletes d := by
  rcases get_char d key now with ⟨hn, he, hf⟩
  cases h1 : aget d.items (pfxKey d key) with
  | none => rw [hn h1]; exact mdeletes_mmap recordMiss (fun m => rfl) d
  | some item =>
    cases h2 : isExpired now item
    · rw [hf item h1 h2]
      cases h3 : aget d.nodes (pfxKey d key) <;>
        simp only [h3] <;>
          rw [mdeletes_mmap recordHit (fun m => rfl)] <;> rfl
    · rw [he item h1 h2]
      exact mdeletes_mmap recordMiss (fun m => rfl) d

/-! ### Key-subset preservation per operation -/

theorem keySub_aset_items (d : Driver) (pk : String) (it : Item)
    (h : keySub d) : keySub { d with items := aset d.items pk it } := by
  constructor <;> intro k hk <;>
    · by_cases hpk : k = pk
      · simp [aget_aset, hpk]
      · rw [aget_aset, if_neg hpk]
        first
          | exact h.1 k hk
          | exact h.2 k hk

theorem forgetRaw_keySub (d : Driver) (pk : String) (h : keySub d) :
    keySub (forgetRaw d pk) := by
  constructor <;> intro k hk
  · rw [forgetRaw_nodes] at hk
    rw [forgetRaw_items]
    by_cases hp : k = pk
    · simp [hp] at hk
    · rw [if_neg hp] at hk ⊢
      exact h.1 k hk
  · rw [forgetRaw_keyTags] at hk
    rw [forgetRaw_items]
    by_cases hp : k = pk
    · simp [hp] at hk
    · rw [if_neg hp] at hk ⊢
      exact h.2 k hk

theorem addKeyTags_empty (d : Driver) (key : String) (tgs : List String)
    (h : tgs.isEmpty) : addKeyTags d key tgs = d := by
  unfold addKeyTags
  simp [h]

theorem taggedPut_keySub (d : Driver) (tgs : List String) (key : String)
    (value : GoValue) (ttl now : Int) (h : keySub d) :
    keySub (taggedPut d tgs key value ttl now) := by
  unfold taggedPut
  have h1 : keySub (put d key value ttl now) := put_keySub d key value ttl now h
  by_cases ht : tgs.isEmpty
  · rw [addKeyTags_empty _ _ _ ht]
    exact h1
  · constructor
    · intro k hk
      rw [addKeyTags_nodes] at hk
      rw [addKeyTags_items]
      exact h1.1 k hk
    · intro k hk
      rw [addKeyTags_keyTags _ _ _ _ ht] at hk
      rw [addKeyTags_items]
      by_cases hp : k = pfxKey (put d key value ttl now) key
      · have hpfx : pfxKey (put d key value ttl now) key = pfxKey d key := by
          unfold pfxKey
          rw [put_pfx]
        rw [hp, hpfx, put_items_self]
        rfl
      · rw [if_neg hp] at hk
        exact h1.2 k hk

theorem flush_keySub (d : Driver) : keySub (flush d) := by
  constructor <;> intro k hk <;> simp [flush, aget] at hk

theorem increment_keySub (d : Driver) (key : String) (v now : Int)
    (h : keySub d) : keySub (increment d key v now).1 :=
  keySub_aset_items d (pfxKey d key) _ h

theorem putMultiple_keySub (d : Driver) (items : List (String × GoValue))
    (ttl now : Int) (h : keySub d) :
    keySub (putMultiple d items ttl now) := by
  unfold putMultiple
  exact foldl_pres keySub _ (fun x p hx => keySub_aset_items x _ _ hx) items d h

theorem taggedPutMultiple_keySub (d : Driver) (tgs : List String)
    (items : List (String × GoValue)) (ttl now : Int) (h : keySub d) :
    keySub (taggedPutMultiple d tgs items ttl now) := by
  unfold taggedPutMultiple
  exact foldl_pres keySub _
    (fun x p hx => taggedPut_keySub x tgs p.1 p.2 ttl now hx) items d h

theorem forgetMultiple_keySub (d : Driver) (keys : List String)
    (h : keySub d) : keySub (forgetMultiple d keys) := by
  unfold forgetMultiple
  exact foldl_pres keySub _ (fun x k hx => forgetRaw_keySub x _ hx) keys d h

theorem flushTags_keySub (d : Driver) (tgs : List String) (h : keySub d) :
    keySub (flushTags d tgs) := by
  unfold flushTags
  exact foldl_pres keySub _ (fun x k hx => forgetRaw_keySub x k hx) _ d h

theorem removeExpired_keySub (d : Driver) (now : Int) (h : keySub d) :
    keySub (removeExpired d now) := by
  unfold removeExpired
  refine foldl_pres keySub _ (fun x p hx => ?_) d.items d h
  split
  · exact forgetRaw_keySub x _ hx
  · exact hx

theorem get_keySub (d : Driver) (key : String) (now : Int) (h : keySub d) :
    keySub (get d key now).1 := by
  constructor <;> intro k hk
  · rw [get_fst_nodes] at hk
    rw [get_fst_items]
    exact h.1 k hk
  · rw [get_fst_keyTags] at hk
    rw [get_fst_items]
    exact h.2 k hk

theorem step_keySub (op : Op) (d : Driver) (h : keySub d) :
    keySub (step d op) := by
  cases op with
  | opPut key value ttl now => exact put_keySub d key value ttl now h
  | opTaggedPut tgs key value ttl now =>
    exact taggedPut_keySub d tgs key value ttl now h
  | opPutMulti items ttl now => exact putMultiple_keySub d items ttl now h
  | opTaggedPutMulti tgs items ttl now =>
    exact taggedPutMultiple_keySub d tgs items ttl now h
  | opGet key now => exact get_keySub d key now h
  | opIncrement key v now => exact increment_keySub d key v now h
  | opDecrement key v now => exact increment_keySub d key (-v) now h
  | opForever key value now => exact put_keySub d key value 0 now h
  | opForget key => exact forgetRaw_keySub d _ h
  | opForgetMulti keys => exact forgetMultiple_keySub d keys h
  | opFlush => exact flush_keySub d
  | opFlushTags tgs => exact flushTags_keySub d tgs h
  | opEvict => exact evictOne_keySub d h
  | opSweep now => exact removeExpired_keySub d now h

theorem newDriver_keySub (c : Config) : keySub (newDriver c) := by
  constructor <;> intro k hk <;> simp [newDriver, aget] at hk

/-! ### The deletes counter is never touched, per operation -/

theorem forgetRaw_mdeletes (d : Driver) (pk : String) :
    mdeletes (forgetRaw d pk) = mdeletes d :=
  mdeletes_congr_metrics _ _ (forgetRaw_metrics d pk)

theorem taggedPut_mdeletes (d : Driver) (tgs : List String) (key : String)
    (value : GoValue) (ttl now : Int) :
    mdeletes (taggedPut d tgs key value ttl now) = mdeletes d := by
  unfold taggedPut
  rw [mdeletes_congr_metrics _ _ (addKeyTags_metrics _ _ _)]
  exact put_mdeletes d key value ttl now

theorem step_mdeletes (op : Op) (d : Driver) :
    mdeletes (step d op) = mdeletes d := by
  cases op with
  | opPut key value ttl now => exact put_mdeletes d key value ttl now
  | opTaggedPut tgs key value ttl now =>
    exact taggedPut_mdeletes d tgs key value ttl now
  | opPutMulti items ttl now =>
    show mdeletes (putMultiple d items ttl now) = mdeletes d
    unfold putMultiple
    refine foldl_pres (fun x => mdeletes x = mdeletes d) _ ?_ items d rfl
    exact fun x p hx => hx
  | opTaggedPutMulti tgs items ttl now =>
    exact foldl_pres (fun x => mdeletes x = mdeletes d) _
      (fun x p hx => (taggedPut_mdeletes x tgs p.1 p.2 ttl now).trans hx)
      items d rfl
  | opGet key now => exact get_mdeletes d key now
  | opIncrement key v now => rfl
  | opDecrement key v now => rfl
  | opForever key value now => exact put_mdeletes d key value 0 now
  | opForget key => exact forgetRaw_mdeletes d _
  | opForgetMulti keys =>
    exact foldl_pres (fun x => mdeletes x = mdeletes d) _
      (fun x k hx => (forgetRaw_mdeletes x _).trans hx) keys d rfl
  | opFlush => rfl
  | opFlushTags tgs =>
    exact foldl_pres (fun x => mdeletes x = mdeletes d) _
      (fun x k hx => (forgetRaw_mdeletes x k).trans hx) _ d rfl
  | opEvict => exact evictOne_mdeletes d
  | opSweep now =>
    refine foldl_pres (fun x => mdeletes x = mdeletes d) _
      (fun x p hx => ?_) d.items d rfl
    split
    · exact (forgetRaw_mdeletes x _).trans hx
    · exact hx

theorem newDriver_mdeletes (c : Config) : mdeletes (newDriver c) = 0 := by
  unfold mdeletes driverStats newDriver
  cases c.enableMetrics <;> rfl

/-! ### Auxiliary facts for the remaining claims -/

theorem evictBytesLoop_config (d : Driver) (n : Int) :
    (evictBytesLoop d n).config = d.config :=
  evictBytesLoop_pres (fun x => x.config = d.config)
    (fun x hx => (evictOne_config x).trans hx) n d.lru.length d le_rfl rfl

theorem wrap64_eq_self (x : Int) (h1 : -(2 ^ 63) ≤ x) (h2 : x < 2 ^ 63) :
    wrap64 x = x := by
  unfold wrap64
  omega

/-- Deleting a list of (prefixed) keys one at a time removes exactly the
listed keys from the item map. -/
theorem foldl_forgetRaw_items (R : List String) (d : Driver) (k : String) :
    aget (R.foldl (fun acc x => forgetRaw acc x) d).items k =
      if k ∈ R then none else aget d.items k := by
  induction R generalizing d with
  | nil => simp
  | cons r t ih =>
    simp only [List.foldl_cons]
    rw [ih]
    by_cases h1 : k ∈ t
    · simp [h1]
    · by_cases h2 : k = r
      · simp [h1, h2, forgetRaw_items]
      · simp [h1, h2, forgetRaw_items]

theorem foldl_forgetRaw_nodes (R : List String) (d : Driver) (k : String) :
    aget (R.foldl (fun acc x => forgetRaw acc x) d).nodes k =
      if k ∈ R then none else aget d.nodes k := by
  induction R generalizing d with
  | nil => simp
  | cons r t ih =>
    simp only [List.foldl_cons]
    rw [ih]
    by_cases h1 : k ∈ t
    · simp [h1]
    · by_cases h2 : k = r
      · simp [h1, h2, forgetRaw_nodes]
      · simp [h1, h2, forgetRaw_nodes]

/-- The set-insert fold used to deduplicate `keysToRemove` only grows
the accumulator. -/
theorem dedupIns_mono (keys : List String) (acc : List String) (x : String)
    (h : x ∈ acc) :
    x ∈ keys.foldl (fun a k => if k ∈ a then a else a ++ [k]) acc := by
  induction keys generalizing acc with
  | nil => exact h
  | cons k1 t ih =>
    simp only [List.foldl_cons]
    apply ih
    split
    · exact h
    · exact List.mem_append_left _ h

theorem dedupIns_covers (keys : List String) (acc : List String) (x : String)
    (h : x ∈ keys) :
    x ∈ keys.foldl (fun a k => if k ∈ a then a else a ++ [k]) acc := by
  induction keys generalizing acc with
  | nil => simp at h
  | cons k1 t ih =>
    simp only [List.foldl_cons]
    rcases List.mem_cons.mp h with h1 | h1
    · subst h1
      apply dedupIns_mono
      split
      · assumption
      · exact List.mem_append_right _ (List.mem_singleton_self x)
    · exact ih _ h1

theorem dedupIns_nodup (keys : List String) (acc : List String)
    (h : acc.Nodup) :
    (keys.foldl (fun a k => if k ∈ a then a else a ++ [k]) acc).Nodup := by
  induction keys generalizing acc with
  | nil => exact h
  | cons k1 t ih =>
    simp only [List.foldl_cons]
    apply ih
    split
    · exact h
    · next hnm =>
      rw [List.nodup_append]
      exact ⟨h, List.nodup_singleton k1,
        by simpa [List.disjoint_singleton] using hnm⟩

theorem keysToRemove_mono (d : Driver) (tgs : List String) :
    ∀ (acc : List String) (x : String), x ∈ acc →
      x ∈ tgs.foldl
        (fun acc tag =>
          match aget d.tags tag with
          | some keys =>
            keys.foldl (fun a k => if k ∈ a then a else a ++ [k]) acc
          | none => acc) acc := by
  induction tgs with
  | nil => exact fun acc x h => h
  | cons t ts ih =>
    intro acc x h
    simp only [List.foldl_cons]
    apply ih
    cases aget d.tags t with
    | none => exact h
    | some keys => exact dedupIns_mono keys acc x h

theorem keysToRemove_covers (d : Driver) (tgs : List String) (tag : String)
    (keys : List String) (key : String) (htag : tag ∈ tgs)
    (hget : aget d.tags tag = some keys) (hkey : key ∈ keys) :
    key ∈ keysToRemove d tgs := by
  unfold keysToRemove
  suffices h : ∀ (acc : List String),
      key ∈ tgs.foldl
        (fun acc tag =>
          match aget d.tags tag with
          | some keys =>
            keys.foldl (fun a k => if k ∈ a then a else a ++ [k]) acc
          | none => acc) acc by
    exact h []
  induction tgs with
  | nil => simp at htag
  | cons t ts ih =>
    intro acc
    simp only [List.foldl_cons]
    rcases List.mem_cons.mp htag with h1 | h1
    · subst h1
      apply keysToRemove_mono
      rw [hget]
      exact dedupIns_covers keys acc key hkey
    · exact ih h1 _

theorem keysToRemove_nodup (d : Driver) (tgs : List String) :
    (keysToRemove d tgs).Nodup := by
  unfold keysToRemove
  suffices h : ∀ (acc : List String), acc.Nodup →
      (tgs.foldl
        (fun acc tag =>
          match aget d.tags tag with
          | some keys =>
            keys.foldl (fun a k => if k ∈ a then a else a ++ [k]) acc
          | none => acc) acc).Nodup by
    exact h [] List.nodup_nil
  induction tgs with
  | nil => exact fun acc h => h
  | cons t ts ih =>
    intro acc hacc
    simp only [List.foldl_cons]
    apply ih
    cases aget d.tags t with
    | none => exact hacc
    | some keys => exact dedupIns_nodup keys acc hacc

/-! ## The claims -/

/-- C1, counterexample: the three structures do not agree on the live
key set.  After `put "k"` followed by `forget "k"` on a fresh driver,
the key `"k"` is gone from the item map (and never was in the tag index)
but its node is still linked in the eviction-index list: `forget` only
deletes the node-handle map entry and never unlinks the list node. -/
theorem c1_structures_agree_counterexample :
    ¬ structuresAgree
      (runOps defaultConfig [.opPut "k" (.VString 1) 0 0, .opForget "k"]) := by
  intro h
  have h2 : "k" ∈ (runOps defaultConfig
      [.opPut "k" (.VString 1) 0 0, .opForget "k"]).lru.map Prod.snd := by
    decide
  exact absurd ((h "k").1.mpr h2) (by decide)

/-- C1, amended: in every state reachable by any sequence of public
operations, the node-handle map and the tag index never hold a key that
is absent from the item map (the converse containments fail: `forget`
leaves the list node linked, and `put_multi`/`increment` create items
with no eviction-index node and no tag entry). -/
theorem c1_key_subset_invariant (c : Config) (ops : List Op) :
    keySub (runOps c ops) := by
  unfold runOps
  exact foldl_pres keySub step (fun d op h => step_keySub op d h) ops
    (newDriver c) (newDriver_keySub c)

/-- Witness for C1 (amended), discharging the implication inside
`keySub` at a concrete reachable state. -/
theorem c1_key_subset_invariant_witness :
    (aget (runOps defaultConfig [.opPut "k" (.VString 1) 0 0]).nodes
        "k").isSome = true ∧
    (aget (runOps defaultConfig [.opPut "k" (.VString 1) 0 0]).items
        "k").isSome = true :=
  ⟨by decide,
    (c1_key_subset_invariant defaultConfig [.opPut "k" (.VString 1) 0 0]).1
      "k" (by decide)⟩

/-- C2, counterexample: with `max_items = 1`, no byte limit, and two
zero-sized items both linked in the eviction index (zero-sized puts have
a non-positive delta, so they are admitted without any eviction), a put
with net delta 1 consults the policy, which evicts exactly once and
stops: the resulting pre-insert state still has an item count not below
the limit while the eviction index is non-empty — the claimed
"evict until the count is below the limit unless the index runs empty"
postcondition is false — and the final state holds 2 items. -/
theorem c2_capacity_policy_counterexample :
    netDelta
        (runOps { defaultConfig with maxItems := 1 }
          [.opPut "c" (.VString 0) 0 0, .opPut "d" (.VString 0) 0 0])
        "e" (estimateSize (.VString 1)) = 1 ∧
    ¬ specCapacityPost
        (runOps { defaultConfig with maxItems := 1 }
          [.opPut "c" (.VString 0) 0 0, .opPut "d" (.VString 0) 0 0])
        (evictIfNeeded
          (runOps { defaultConfig with maxItems := 1 }
            [.opPut "c" (.VString 0) 0 0, .opPut "d" (.VString 0) 0 0]) 1)
        1 ∧
    (put (runOps { defaultConfig with maxItems := 1 }
        [.opPut "c" (.VString 0) 0 0, .opPut "d" (.VString 0) 0 0])
      "e" (.VString 1) 0 0).items.length = 2 := by
  refine ⟨by decide, fun h => ?_, by decide⟩
  rcases h.1 (by decide) with h1 | h1
  · exact absurd h1 (by decide)
  · exact absurd h1 (by decide)

/-- C2, amended: `put` computes the net size delta (new − old on
replacement) and consults the capacity policy only when it is positive;
the policy makes at most one eviction attempt for the item-count limit
(a single conditional eviction, not a loop), then evicts
least-recently-used entries while current bytes plus the delta exceed
the byte limit, stopping as soon as an eviction attempt fails; the
incoming item is stored unconditionally. -/
theorem c2_put_capacity_amended (d : Driver) (key : String)
    (value : GoValue) (ttl now : Int) :
    (aget (put d key value ttl now).items (pfxKey d key) =
      some ⟨key, value, if ttl > 0 then some (now + ttl) else none⟩) ∧
    (∀ old, aget d.items (pfxKey d key) = some old →
      netDelta d (pfxKey d key) (estimateSize value) =
        estimateSize value - estimateSize old.value) ∧
    (netDelta d (pfxKey d key) (estimateSize value) ≤ 0 →
      ∀ k, k ≠ pfxKey d key →
        aget (put d key value ttl now).items k = aget d.items k) ∧
    (netDelta d (pfxKey d key) (estimateSize value) > 0 →
      d.config.maxBytes ≤ 0 →
      ∃ ek, ∀ k, k ≠ ek →
        aget (evictIfNeeded d
          (netDelta d (pfxKey d key) (estimateSize value))).items k =
        aget d.items k) ∧
    (netDelta d (pfxKey d key) (estimateSize value) > 0 →
      d.config.maxBytes > 0 →
      (currentBytes (evictIfNeeded d
            (netDelta d (pfxKey d key) (estimateSize value))) +
          netDelta d (pfxKey d key) (estimateSize value) ≤
          d.config.maxBytes ∨
        ∃ d', currentBytes d' +
            netDelta d (pfxKey d key) (estimateSize value) >
            d'.config.maxBytes ∧
          (evictOne d').2 = false ∧
          evictIfNeeded d (netDelta d (pfxKey d key) (estimateSize value)) =
            (evictOne d').1)) := by
  refine ⟨put_items_self d key value ttl now, ?_, ?_, ?_, ?_⟩
  · intro old h
    simp [netDelta, h]
  · intro hle k hk
    simp only [put]
    rw [if_neg (show ¬ netDelta d (pfxKey d key) (estimateSize value) > 0 by
      omega), putCore_items, if_neg hk]
  · intro hpos hb
    simp only [evictIfNeeded]
    set d1 := if d.config.maxItems > 0 ∧
        (d.items.length : Int) ≥ d.config.maxItems
      then (evictOne d).1 else d with hd1
    have hcfg : d1.config = d.config := by
      rw [hd1]
      split
      · exact evictOne_config d
      · rfl
    rw [if_neg (by rw [hcfg]; omega)]
    rw [hd1]
    split
    · rcases evictOne_char d with ⟨_, hit, _⟩ | ⟨_, ekey, _, hit, _⟩
      · exact ⟨"", fun k _ => by rw [hit]⟩
      · exact ⟨ekey, fun k hk => by rw [hit k, if_neg hk]⟩
    · exact ⟨"", fun k _ => rfl⟩
  · intro hpos hb
    simp only [evictIfNeeded]
    set d1 := if d.config.maxItems > 0 ∧
        (d.items.length : Int) ≥ d.config.maxItems
      then (evictOne d).1 else d with hd1
    have hcfg : d1.config = d.config := by
      rw [hd1]
      split
      · exact evictOne_config d
      · rfl
    rw [if_pos (by rw [hcfg]; exact hb)]
    rcases evictBytesLoop_post
        (netDelta d (pfxKey d key) (estimateSize value))
        d1.lru.length d1 le_rfl with h | h
    · left
      rwa [evictBytesLoop_config, hcfg] at h
    · right
      exact h

/-- The concrete byte-limited store the C2 witness instantiates the
amended theorem on. -/
abbrev c2wDriver : Driver :=
  runOps { defaultConfig with maxBytes := 5 } [.opPut "a" (.VString 4) 0 0]

/-- The pending net delta of the C2 witness put. -/
abbrev c2wDelta : Int := netDelta c2wDriver "b" (estimateSize (.VString 3))

/-- Witness for C2 (amended): a byte-limited store where the policy runs
and the byte condition is met on exit. -/
theorem c2_put_capacity_amended_witness :
    c2wDelta > 0 ∧ c2wDriver.config.maxBytes > 0 ∧
    (currentBytes (evictIfNeeded c2wDriver c2wDelta) + c2wDelta ≤
        c2wDriver.config.maxBytes ∨
      ∃ d', currentBytes d' + c2wDelta > d'.config.maxBytes ∧
        (evictOne d').2 = false ∧
        evictIfNeeded c2wDriver c2wDelta = (evictOne d').1) := by
  have h := c2_put_capacity_amended c2wDriver "b" (.VString 3) 0 0
  have hpk : pfxKey c2wDriver "b" = "b" := by decide
  refine ⟨by decide, by decide, ?_⟩
  have h5 := h.2.2.2.2 (by decide) (by decide)
  rw [hpk] at h5
  exact h5

/-- C3, counterexample: `get` on an expired item returns NotFound and
records a miss, but does not discard the item — the expired entry is
still in the item map afterwards (it is removed only by the background
sweep, eviction, flush or an explicit forget). -/
theorem c3_get_expired_not_discarded_counterexample :
    (get (put (newDriver defaultConfig) "k" (.VString 3) oneSecond 0) "k"
        (oneSecond + 1)).2 = none ∧
    aget (get (put (newDriver defaultConfig) "k" (.VString 3) oneSecond 0)
        "k" (oneSecond + 1)).1.items "k" =
      some ⟨"k", .VString 3, some oneSecond⟩ :=
  ⟨by decide, by decide⟩

/-- C3, amended: an absent or expired key makes `get` return NotFound
and record a miss, leaving every structure except the miss counter
untouched (in particular the expired item stays stored); a live key
returns its value, records a hit, and moves the key's eviction-index
node (when one exists) to the front; an item stored with a 1-second TTL
is present immediately and NotFound after the TTL has elapsed, with no
sweep involved. -/
theorem c3_get_amended (d : Driver) (key : String) (now : Int) :
    (aget d.items (pfxKey d key) = none →
      get d key now = (mmap recordMiss d, none)) ∧
    (∀ item, aget d.items (pfxKey d key) = some item →
      isExpired now item = true →
      get d key now = (mmap recordMiss d, none)) ∧
    (∀ item, aget d.items (pfxKey d key) = some item →
      isExpired now item = false →
      (get d key now).2 = some item.value ∧
      (get d key now).1.items = d.items ∧
      (get d key now).1.metrics = d.metrics.map recordHit ∧
      (∀ id, aget d.nodes (pfxKey d key) = some id →
        (get d key now).1.lru = lruMoveToFront d.lru id) ∧
      (aget d.nodes (pfxKey d key) = none →
        (get d key now).1.lru = d.lru)) ∧
    ((get (put (newDriver defaultConfig) "k" (.VString 3) oneSecond 0)
        "k" 0).2 = some (.VString 3)) ∧
    ((get (put (newDriver defaultConfig) "k" (.VString 3) oneSecond 0)
        "k" (oneSecond + 1)).2 = none) := by
  rcases get_char d key now with ⟨hn, he, hf⟩
  refine ⟨hn, he, fun item h1 h2 => ?_, by decide, by decide⟩
  rw [hf item h1 h2]
  refine ⟨rfl, ?_, ?_, ?_, ?_⟩
  · cases h3 : aget d.nodes (pfxKey d key) <;> simp [h3, mmap]
  · cases h3 : aget d.nodes (pfxKey d key) <;> simp [h3, mmap]
  · intro id h3
    simp [h3, mmap]
  · intro h3
    simp [h3, mmap]

/-- Witness for C3 (amended): the live-key case at a concrete state. -/
theorem c3_get_amended_witness :
    aget (put (newDriver defaultConfig) "k" (.VString 3) oneSecond 0).items
        (pfxKey (put (newDriver defaultConfig) "k" (.VString 3) oneSecond 0)
          "k") = some ⟨"k", .VString 3, some oneSecond⟩ ∧
    isExpired 0 (⟨"k", .VString 3, some oneSecond⟩ : Item) = false ∧
    (get (put (newDriver defaultConfig) "k" (.VString 3) oneSecond 0)
        "k" 0).2 = some (GoValue.VString 3) := by
  refine ⟨by decide, by decide, ?_⟩
  exact ((c3_get_amended
      (put (newDriver defaultConfig) "k" (.VString 3) oneSecond 0)
      "k" 0).2.2.1
    ⟨"k", .VString 3, some oneSecond⟩ (by decide) (by decide)).1

/-- C4: `PutMultiple` is not equivalent to applying `put` per item.  On
a fresh metrics-enabled store, `put_multi {k: "x"}` writes the item map
only: it creates no eviction-index node (so the key can never be chosen
by LRU eviction) and records no metrics, while the per-item `put`
semantics (`putMultiSpec`, the spec's reference) creates the node and
counts one set.  The in-repo comments around the tagged view call out
that `Driver.PutMultiple` "isn't refactored" onto `put`, so the spec
states the intent and the code is the slip. -/
theorem c4_putmulti_diverges_from_put :
    (putMultiple (newDriver { defaultConfig with enableMetrics := true })
        [("k", .VString 1)] 0 0).nodes = [] ∧
    (putMultiSpec (newDriver { defaultConfig with enableMetrics := true })
        [("k", .VString 1)] 0 0).nodes = [("k", 0)] ∧
    (driverStats (putMultiple
        (newDriver { defaultConfig with enableMetrics := true })
        [("k", .VString 1)] 0 0)).sets = 0 ∧
    (driverStats (putMultiSpec
        (newDriver { defaultConfig with enableMetrics := true })
        [("k", .VString 1)] 0 0)).sets = 1 ∧
    putMultiple (newDriver { defaultConfig with enableMetrics := true })
        [("k", .VString 1)] 0 0 ≠
      putMultiSpec (newDriver { defaultConfig with enableMetrics := true })
        [("k", .VString 1)] 0 0 :=
  ⟨by decide, by decide, by decide, by decide, by decide⟩

/-- C5, counterexample: `Allow` uses a strict comparison.  With
threshold 1 and reset timeout 5, a failure at time 10 opens the breaker;
at time 15 the elapsed time equals the reset timeout — "at least
reset_timeout" — yet `allow` still returns false (the code requires
`elapsed > reset_timeout`, strictly). -/
theorem c5_allow_boundary_counterexample :
    (reportFailure (newThresholdBreaker 1 5) 10).state = .open ∧
    15 - (reportFailure (newThresholdBreaker 1 5) 10).lastFailureTime =
      (reportFailure (newThresholdBreaker 1 5) 10).resetTimeout ∧
    (allow (reportFailure (newThresholdBreaker 1 5) 10) 15).2 = false :=
  ⟨by decide, by decide, by decide⟩

/-- C5, amended: the breaker behaves as claimed except at the timeout
boundary: in `Open`, `allow` admits the call and moves to `HalfOpen`
only when the elapsed time strictly exceeds the reset timeout, and
returns false when the elapsed time is at most the timeout.  All other
transitions are as stated, including the threshold-3 scenario. -/
theorem c5_breaker_amended (b : TBreaker) (now : Int) :
    (b.state = .closed → allow b now = (b, true)) ∧
    (b.state = .halfOpen → allow b now = (b, true)) ∧
    (b.state = .open → now - b.lastFailureTime > b.resetTimeout →
      allow b now = ({ b with state := .halfOpen }, true)) ∧
    (b.state = .open → now - b.lastFailureTime ≤ b.resetTimeout →
      allow b now = (b, false)) ∧
    (b.state = .closed → b.failures + 1 ≥ b.failureThreshold →
      reportFailure b now =
        { b with failures := b.failures + 1, state := .open,
                 lastFailureTime := now }) ∧
    (b.state = .closed → b.failures + 1 < b.failureThreshold →
      reportFailure b now = { b with failures := b.failures + 1 }) ∧
    (b.state = .halfOpen → reportSuccess b =
      { b with state := .closed, failures := 0 }) ∧
    (b.state = .halfOpen → reportFailure b now =
      { b with state := .open, lastFailureTime := now }) ∧
    ((allow (reportFailure (reportFailure (newThresholdBreaker 3 100) 0) 1)
        2).2 = true) ∧
    ((allow (reportFailure (reportFailure (reportFailure
        (newThresholdBreaker 3 100) 0) 1) 2) 50).2 = false) ∧
    ((allow (reportFailure (reportFailure (reportFailure
        (newThresholdBreaker 3 100) 0) 1) 2) 103).1.state = .halfOpen ∧
      (allow (reportFailure (reportFailure (reportFailure
        (newThresholdBreaker 3 100) 0) 1) 2) 103).2 = true) ∧
    ((reportSuccess (allow (reportFailure (reportFailure (reportFailure
        (newThresholdBreaker 3 100) 0) 1) 2) 103).1).state = .closed ∧
      (reportSuccess (allow (reportFailure (reportFailure (reportFailure
        (newThresholdBreaker 3 100) 0) 1) 2) 103).1).failures = 0) := by
  refine ⟨?_, ?_, ?_, ?_, ?_, ?_, ?_, ?_,
    by decide, by decide, by decide, by decide⟩
  · intro h
    simp [allow, h]
  · intro h
    simp [allow, h]
  · intro h h2
    simp [allow, h, h2]
  · intro h h2
    simp [allow, h, show ¬(now - b.lastFailureTime > b.resetTimeout) by
      omega]
  · intro h h2
    simp [reportFailure, h, h2]
  · intro h h2
    simp [reportFailure, h, show ¬(b.failures + 1 ≥ b.failureThreshold) by
      omega]
  · intro h
    simp [reportSuccess, h]
  · intro h
    simp [reportFailure, h]

/-- Witness for C5 (amended): the `Closed` case of `allow` at a fresh
breaker. -/
theorem c5_breaker_amended_witness :
    (newThresholdBreaker 3 100).state = BState.closed ∧
    allow (newThresholdBreaker 3 100) 7 = (newThresholdBreaker 3 100, true) :=
  ⟨by decide, (c5_breaker_amended (newThresholdBreaker 3 100) 7).1 (by decide)⟩

/-- C6, counterexample: only Get, Put, Forget and Flush are intercepted
by the wrapper.  With the breaker open (and the timeout not yet
elapsed), a `Has` call still reaches the wrapped store, returns the
backend's result instead of a circuit-open error, and never consults or
updates the breaker. -/
theorem c6_wrapper_counterexample :
    (allow (reportFailure (newThresholdBreaker 1 100) 0) 10).2 = false ∧
    cbInvoke (reportFailure (newThresholdBreaker 1 100) 0) 10 none .sHas =
      (reportFailure (newThresholdBreaker 1 100) 0, true, none) :=
  ⟨by decide, by decide⟩

/-- C6, amended: for the four intercepted operations (get, put, forget,
flush) the wrapper checks `allow` first, fails fast with a circuit-open
error without touching the store when it is false, and otherwise
delegates and reports the outcome — treating a key-not-found result as
success; every other store operation (get_multi, put_multi, increment,
decrement, forever, forget_multi, has, is_missing) is promoted from the
wrapped driver and bypasses the breaker entirely. -/
theorem c6_wrapper_amended (b : TBreaker) (now : Int) (resp : Option CBErr)
    (op : StoreOp) :
    (intercepted op = false → cbInvoke b now resp op = (b, true, resp)) ∧
    (intercepted op = true → (allow b now).2 = false →
      cbInvoke b now resp op = ((allow b now).1, false, some .circuitOpen)) ∧
    (intercepted op = true → (allow b now).2 = true →
      cbInvoke b now resp op = (cbReport (allow b now).1 now resp, true, resp)) ∧
    cbReport b now (some .keyNotFound) = reportSuccess b ∧
    cbReport b now none = reportSuccess b ∧
    cbReport b now (some .backend) = reportFailure b now ∧
    (intercepted .sGet = true ∧ intercepted .sPut = true ∧
      intercepted .sForget = true ∧ intercepted .sFlush = true) ∧
    (intercepted .sGetMulti = false ∧ intercepted .sPutMulti = false ∧
      intercepted .sIncrement = false ∧ intercepted .sDecrement = false ∧
      intercepted .sForever = false ∧ intercepted .sForgetMulti = false ∧
      intercepted .sHas = false ∧ intercepted .sMissing = false) := by
  refine ⟨?_, ?_, ?_, by simp [cbReport], by simp [cbReport],
    by simp [cbReport], by decide, by decide⟩
  · intro h1
    simp [cbInvoke, h1]
  · intro h1 h2
    rcases ha : allow b now with ⟨b1, flag⟩
    rw [ha] at h2
    simp only at h2
    subst h2
    simp [cbInvoke, h1, ha]
  · intro h1 h2
    rcases ha : allow b now with ⟨b1, flag⟩
    rw [ha] at h2
    simp only at h2
    subst h2
    simp [cbInvoke, h1, ha]

/-- Witness for C6 (amended): an intercepted `Get` through a closed
breaker delegates and reports. -/
theorem c6_wrapper_amended_witness :
    intercepted StoreOp.sGet = true ∧
    (allow (newThresholdBreaker 3 100) 0).2 = true ∧
    cbInvoke (newThresholdBreaker 3 100) 0 (some .keyNotFound) .sGet =
      (cbReport (allow (newThresholdBreaker 3 100) 0).1 0
        (some .keyNotFound), true, some .keyNotFound) := by
  refine ⟨by decide, by decide, ?_⟩
  exact (c6_wrapper_amended (newThresholdBreaker 3 100) 0
    (some .keyNotFound) .sGet).2.2.1 (by decide) (by decide)

/-- The concrete tagged store of the C7 scenario: k1 tagged {t1},
k2 tagged {t2}, k3 tagged {t1, t2}. -/
abbrev dC7 : Driver :=
  taggedPut (taggedPut (taggedPut (newDriver defaultConfig)
    ["t1"] "k1" (.VString 1) 0 0)
    ["t2"] "k2" (.VString 1) 0 0)
    ["t1", "t2"] "k3" (.VString 1) 0 0

/-- C7: `flush_tags` removes exactly the union of the given tags' key
sets — the collected key list is duplicate-free, so a key carrying
several of the flushed tags is deleted exactly once — and in the
three-key scenario flushing t1 removes exactly k1 and k3, leaving k2. -/
theorem c7_flush_tags_scope (d : Driver) (tgs : List String) :
    (∀ k, aget (flushTags d tgs).items k =
      if k ∈ keysToRemove d tgs then none else aget d.items k) ∧
    (∀ k, aget (flushTags d tgs).nodes k =
      if k ∈ keysToRemove d tgs then none else aget d.nodes k) ∧
    (keysToRemove d tgs).Nodup ∧
    (∀ tag keys key, tag ∈ tgs → aget d.tags tag = some keys →
      key ∈ keys → key ∈ keysToRemove d tgs) ∧
    aget (flushTags dC7 ["t1"]).items "k1" = none ∧
    aget (flushTags dC7 ["t1"]).items "k3" = none ∧
    aget (flushTags dC7 ["t1"]).items "k2" =
      some ⟨"k2", .VString 1, none⟩ ∧
    keysToRemove dC7 ["t1"] = ["k1", "k3"] := by
  refine ⟨?_, ?_, keysToRemove_nodup d tgs,
    fun tag keys key h1 h2 h3 => keysToRemove_covers d tgs tag keys key
      h1 h2 h3, by decide, by decide, by decide, by decide⟩
  · intro k
    simp only [flushTags]
    exact foldl_forgetRaw_items (keysToRemove d tgs) d k
  · intro k
    simp only [flushTags]
    exact foldl_forgetRaw_nodes (keysToRemove d tgs) d k

/-- Witness for C7: `k3`, carrying both t1 and t2, is collected when t1
is flushed. -/
theorem c7_flush_tags_scope_witness :
    "t1" ∈ ["t1"] ∧ aget dC7.tags "t1" = some ["k1", "k3"] ∧
    "k3" ∈ ["k1", "k3"] ∧ "k3" ∈ keysToRemove dC7 ["t1"] := by
  refine ⟨by decide, by decide, by decide, ?_⟩
  exact (c7_flush_tags_scope dC7 ["t1"]).2.2.2.1 "t1" ["k1", "k3"] "k3"
    (by decide) (by decide) (by decide)

/-- C8, counterexample: only an `int64` value counts as numeric for
`Increment`.  Storing the Go `int` value 5 (numeric, but not `int64`)
and incrementing by 1 yields 1 — the existing numeric value was treated
as zero — where the claim requires 6. -/
theorem c8_increment_nonint64_counterexample :
    aget (put (newDriver defaultConfig) "k" (.VInt 5) 0 0).items "k" =
      some ⟨"k", .VInt 5, none⟩ ∧
    (increment (put (newDriver defaultConfig) "k" (.VInt 5) 0 0)
        "k" 1 0).2 = 1 ∧
    (increment (put (newDriver defaultConfig) "k" (.VInt 5) 0 0)
        "k" 1 0).2 ≠ 5 + 1 :=
  ⟨by decide, by decide, by decide⟩

/-- C8, amended: `increment(key, delta)` stores and returns the wrapped
int64 sum `current + delta` (equal to the exact sum whenever it fits in
int64), where `current` is the existing value when the key holds an
unexpired `int64` — any other existing value, numeric or not, and a
missing or expired key count as zero; the stored item carries no expiry;
`decrement` is `increment` of the negated delta. -/
theorem c8_increment_amended (d : Driver) (key : String) (delta now : Int) :
    ((increment d key delta now).2 =
      wrap64 (incCurrent d (pfxKey d key) now + delta)) ∧
    (∀ it v, aget d.items (pfxKey d key) = some it →
      isExpired now it = false → it.value = .VInt64 v →
      incCurrent d (pfxKey d key) now = v) ∧
    (aget d.items (pfxKey d key) = none →
      incCurrent d (pfxKey d key) now = 0) ∧
    (∀ it, aget d.items (pfxKey d key) = some it →
      isExpired now it = true → incCurrent d (pfxKey d key) now = 0) ∧
    (∀ it, aget d.items (pfxKey d key) = some it →
      (∀ v, it.value ≠ .VInt64 v) → incCurrent d (pfxKey d key) now = 0) ∧
    (-(2 ^ 63) ≤ incCurrent d (pfxKey d key) now + delta →
      incCurrent d (pfxKey d key) now + delta < 2 ^ 63 →
      (increment d key delta now).2 =
        incCurrent d (pfxKey d key) now + delta) ∧
    (aget (increment d key delta now).1.items (pfxKey d key) =
      some ⟨key, .VInt64 (increment d key delta now).2, none⟩) ∧
    decrement d key delta now = increment d key (-delta) now := by
  refine ⟨rfl, ?_, ?_, ?_, ?_, ?_, ?_, rfl⟩
  · intro it v h1 h2 h3
    simp [incCurrent, h1, h2, h3]
  · intro h1
    simp [incCurrent, h1]
  · intro it h1 h2
    simp [incCurrent, h1, h2]
  · intro it h1 h2
    cases hv : it.value <;> simp [incCurrent, h1, hv] <;>
      first
        | rfl
        | exact absurd hv (by intro hc; exact h2 _ hc)
  · intro hlow hhigh
    exact wrap64_eq_self _ hlow hhigh
  · simp [increment, aget_aset]

/-- Witness for C8 (amended): incrementing a live int64 value 5 by 3
yields 8. -/
theorem c8_increment_amended_witness :
    aget (put (newDriver defaultConfig) "k" (.VInt64 5) 0 0).items
        (pfxKey (put (newDriver defaultConfig) "k" (.VInt64 5) 0 0) "k") =
      some ⟨"k", .VInt64 5, none⟩ ∧
    incCurrent (put (newDriver defaultConfig) "k" (.VInt64 5) 0 0)
      (pfxKey (put (newDriver defaultConfig) "k" (.VInt64 5) 0 0) "k") 0 = 5 ∧
    (increment (put (newDriver defaultConfig) "k" (.VInt64 5) 0 0)
        "k" 3 0).2 = 8 := by
  refine ⟨by decide, ?_, by decide⟩
  exact (c8_increment_amended
      (put (newDriver defaultConfig) "k" (.VInt64 5) 0 0) "k" 3 0).2.1
    ⟨"k", .VInt64 5, none⟩ 5 (by decide) (by decide) (by decide)

/-- C9: `Increment` only rewrites the item-map entry of its own key —
the eviction list, the node-handle map, both tag maps and the metrics
are untouched, the stored item carries no expiry, and (since no node is
created) a key absent from the eviction list is never the one removed by
`evictOne`. -/
theorem c9_increment_frame (d : Driver) (key : String) (delta now : Int) :
    ((increment d key delta now).1.lru = d.lru) ∧
    ((increment d key delta now).1.nodes = d.nodes) ∧
    ((increment d key delta now).1.tags = d.tags) ∧
    ((increment d key delta now).1.keyTags = d.keyTags) ∧
    ((increment d key delta now).1.metrics = d.metrics) ∧
    (∀ k, k ≠ pfxKey d key →
      aget (increment d key delta now).1.items k = aget d.items k) ∧
    (aget (increment d key delta now).1.items (pfxKey d key) =
      some ⟨key, .VInt64 (increment d key delta now).2, none⟩) ∧
    (∀ s k, k ∉ s.lru.map Prod.snd →
      aget (evictOne s).1.items k = aget s.items k) := by
  refine ⟨rfl, rfl, rfl, rfl, rfl, ?_, ?_, ?_⟩
  · intro k hk
    simp [increment, aget_aset, hk]
  · simp [increment, aget_aset]
  · exact fun s k h => evictOne_items_of_not_linked s k h

/-- Witness for C9: a concrete increment leaves an unrelated key's item
alone, and a key without an eviction-list node survives `evictOne`. -/
theorem c9_increment_frame_witness :
    ("other" ≠ pfxKey (put (newDriver defaultConfig) "k" (.VString 1) 0 0)
        "ctr") ∧
    aget (increment (put (newDriver defaultConfig) "k" (.VString 1) 0 0)
        "ctr" 1 0).1.items "other" =
      aget (put (newDriver defaultConfig) "k" (.VString 1) 0 0).items
        "other" ∧
    ("x" ∉ (increment (newDriver defaultConfig) "ctr" 1 0).1.lru.map
        Prod.snd) ∧
    aget (evictOne (increment (newDriver defaultConfig) "ctr" 1 0).1).1.items
        "x" =
      aget (increment (newDriver defaultConfig) "ctr" 1 0).1.items "x" := by
  refine ⟨by decide, ?_, by decide, ?_⟩
  · exact (c9_increment_frame
      (put (newDriver defaultConfig) "k" (.VString 1) 0 0) "ctr" 1 0).2.2.2.2.2.1
      "other" (by decide)
  · exact (c9_increment_frame
      (put (newDriver defaultConfig) "k" (.VString 1) 0 0) "ctr" 1 0).2.2.2.2.2.2.2
      (increment (newDriver defaultConfig) "ctr" 1 0).1 "x" (by decide)

/-- C10: in every reachable state — metrics enabled or not — the deletes
counter of a stats snapshot is zero: no public operation ever invokes
`RecordDelete`; `forget`/`forget_multi` (and every other removal path)
delete the item, node handle and tag associations without recording a
delete. -/
theorem c10_deletes_counter_always_zero (c : Config) (ops : List Op) :
    (driverStats (runOps c ops)).deletes = 0 := by
  have h : mdeletes (runOps c ops) = 0 := by
    unfold runOps
    have h2 := foldl_pres (fun x => mdeletes x = mdeletes (newDriver c)) step
      (fun d op hx => (step_mdeletes op d).trans hx) ops (newDriver c) rfl
    rw [h2, newDriver_mdeletes]
  exact h

end DGCache

